import Mathlib

/-!
Shallow embedding of the `exact_lp` algebraic modeling layer
(src/variable.rs, src/expression.rs, src/constraint.rs, src/lib.rs).

The Rust code is generic over `N : Num + Clone`; the exact-rational
instantiation (`BigRational`) is modelled by `ℚ`.  Generic definitions are
stated over a `Field`, which the exact-rational type satisfies.
-/

/-- Embeds `Variable<N>` (src/variable.rs): an id plus an optional display
name.  The phantom numeric parameter of the Rust struct carries no data and
is dropped. -/
structure Variable where
  id : Nat
  name? : Option String
  deriving DecidableEq, Repr

namespace Variable

/-- Embeds `Variable::name` (src/variable.rs lines 33-39): the stored name,
or `"v" ++ id` when unnamed. -/
def name (v : Variable) : String :=
  match v.name? with
  | some n => n
  | none => "v" ++ toString v.id

end Variable

/-- Embeds `Expression<N>` (src/expression.rs): an ordered sequence of
`(coefficient, optional variable)` terms. -/
structure Expression (N : Type) where
  terms : List (N × Option Variable)
  deriving DecidableEq

namespace Expression

variable {N : Type} [Field N]

/-- Embeds `impl From<N> for Expression<N>`: a single constant term. -/
def ofConst (b : N) : Expression N := ⟨[(b, none)]⟩

/-- Embeds `impl From<Variable<N>> for Expression<N>`: a single term with
coefficient `N::one()`. -/
def ofVar (v : Variable) : Expression N := ⟨[((1 : N), some v)]⟩

/-- Embeds `impl Add for Expression` (src/expression.rs lines 93-103):
`self.0.extend(rhs.into().0)`. -/
def add (e1 e2 : Expression N) : Expression N := ⟨e1.terms ++ e2.terms⟩

/-- Embeds `impl Mul<N> for Expression` (src/expression.rs lines 126-137):
every coefficient `w` is replaced by `rhs * w`. -/
def mul (e : Expression N) (k : N) : Expression N :=
  ⟨e.terms.map (fun t => (k * t.1, t.2))⟩

/-- Embeds `impl Neg for Expression` (src/expression.rs lines 116-124):
`self * (N::zero() - N::one())`. -/
def neg (e : Expression N) : Expression N := e.mul ((0 : N) - 1)

/-- Embeds `impl Sub for Expression` (src/expression.rs lines 105-114):
`self.add(rhs.into().neg())`. -/
def sub (e1 e2 : Expression N) : Expression N := e1.add e2.neg

/-- Embeds `impl Div<N> for Expression` (src/expression.rs lines 139-147):
`self * (N::one() / rhs)`. -/
def div (e : Expression N) (k : N) : Expression N := e.mul ((1 : N) / k)

end Expression

/-- Embeds `Constraint<N>` (src/constraint.rs): two expressions joined by an
ordering (`Less` = ≤, `Equal` = =, `Greater` = ≥). -/
structure Constraint (N : Type) where
  lhs : Expression N
  ord : Ordering
  rhs : Expression N
  deriving DecidableEq

namespace Expression

variable {N : Type} [Field N]

/-- Embeds `Expression::le`: `Constraint { lhs: self, ord: Less, rhs }`. -/
def le (e1 e2 : Expression N) : Constraint N := ⟨e1, Ordering.lt, e2⟩

/-- Embeds `Expression::eq`. -/
def eq (e1 e2 : Expression N) : Constraint N := ⟨e1, Ordering.eq, e2⟩

/-- Embeds `Expression::ge`. -/
def ge (e1 e2 : Expression N) : Constraint N := ⟨e1, Ordering.gt, e2⟩

end Expression

namespace Variable

variable {N : Type} [Field N]

/-- Embeds `impl Neg for Variable` (src/variable.rs lines 89-97).  The Rust
body is `Expression::from(self)` - the promotion alone, with no negation
applied. -/
def neg (v : Variable) : Expression N := Expression.ofVar v

end Variable

namespace Constraint

variable {N : Type} [Field N]

/-- Embeds `Constraint::to_normalized` (src/constraint.rs lines 22-33):
`new_lhs = lhs - rhs`; keep the terms whose variable is present, fold the
variable-less coefficients left-to-right from `N::zero()`, and move the
folded constant, negated, to the right-hand side. -/
def to_normalized (c : Constraint N) : Constraint N :=
  let new_lhs := c.lhs.sub c.rhs
  let v := new_lhs.terms.filter (fun e => e.2.isSome)
  let k := (new_lhs.terms.filter (fun e => e.2.isNone)).foldl (fun r e => r + e.1) (0 : N)
  ⟨⟨v⟩, c.ord, Expression.ofConst (-k)⟩

end Constraint

/-- Embeds `Solution<N>` (src/lib.rs): the `BTreeMap<String, N>` of solver
values, modelled as a partial function from display names to values. -/
structure Solution (N : Type) where
  values : String → Option N

namespace Solution

variable {N : Type} [Field N]

/-- Embeds the `.reduce(|a, b| a + b).unwrap_or_else(N::zero)` tail of
`Solution::get_value`: left fold of `+` over a nonempty list, zero for an
empty one. -/
def reduceAdd : List N → N
  | [] => 0
  | x :: xs => xs.foldl (· + ·) x

/-- Embeds `Solution::get_value` (src/lib.rs lines 98-116): each term
contributes (recorded value of the variable's display name, defaulting to
zero; one for a constant term) times the coefficient; contributions are
reduced by addition, defaulting to zero. -/
def get_value (s : Solution N) (e : Expression N) : N :=
  reduceAdd (e.terms.map (fun t =>
    (match t.2 with
     | some v => (s.values v.name).getD 0
     | none => (1 : N)) * t.1))

end Solution

/-! ## Helper lemmas -/

theorem reduceAdd_eq_sum (l : List ℚ) : Solution.reduceAdd l = l.sum := by
  cases l with
  | nil => rfl
  | cons x xs =>
    show xs.foldl (· + ·) x = x + xs.sum
    induction xs generalizing x with
    | nil => simp [Solution.reduceAdd]
    | cons y ys ih => simp only [List.foldl_cons, ih, List.sum_cons, add_assoc]

theorem foldl_add_fst_eq_sum (l : List (ℚ × Option Variable)) (a : ℚ) :
    l.foldl (fun r e => r + e.1) a = a + (l.map Prod.fst).sum := by
  induction l generalizing a with
  | nil => simp
  | cons x xs ih => simp only [List.foldl_cons, List.map_cons, List.sum_cons, ih, add_assoc]

theorem filter_isSome_idem (l : List (ℚ × Option Variable)) :
    (l.filter (fun e => e.2.isSome)).filter (fun e => e.2.isSome)
      = l.filter (fun e => e.2.isSome) := by
  rw [List.filter_filter]
  exact List.filter_congr (fun a _ => Bool.and_self _)

theorem filter_isNone_of_isSome (l : List (ℚ × Option Variable)) :
    (l.filter (fun e => e.2.isSome)).filter (fun e => e.2.isNone) = [] := by
  rw [List.filter_filter]
  rw [List.filter_eq_nil_iff]
  intro a _
  cases h : a.2 <;> simp [h]

/-! ## Claim theorems -/

/-- C1: the claim states that unary negation on a `Variable` yields the same
expression as promoting to an `Expression` and then negating, i.e. a single
term with coefficient minus one.  The code's `impl Neg for Variable` instead
returns the bare promotion `Expression::from(self)` - a single term with
coefficient plus one - so the two results differ on every variable: the code
contradicts the meaning of its own `Neg` implementation. -/
theorem variable_neg_missing_negation :
    (Variable.neg ⟨0, none⟩ : Expression ℚ).terms = [((1 : ℚ), some ⟨0, none⟩)] ∧
    ((Expression.ofVar ⟨0, none⟩ : Expression ℚ).neg).terms = [((-1 : ℚ), some ⟨0, none⟩)] ∧
    [((1 : ℚ), some (⟨0, none⟩ : Variable))] ≠ [((-1 : ℚ), some (⟨0, none⟩ : Variable))] := by
  refine ⟨rfl, ?_, by decide⟩
  show [((0 - 1 : ℚ) * 1, some (⟨0, none⟩ : Variable))] = _
  norm_num

/-- C6: the term sequence of `e1 + e2` is exactly `e1`'s term sequence
followed by `e2`'s: nothing is folded, merged, dropped or reordered. -/
theorem add_concatenates_terms {N : Type} [Field N] (e1 e2 : Expression N) :
    (e1.add e2).terms = e1.terms ++ e2.terms := rfl

/-- C7: for exact rationals and a nonzero scalar `s`, `(e / s) * s` is
term-wise equal to `e`: the same list of (coefficient, variable) pairs. -/
theorem div_mul_cancel_termwise (e : Expression ℚ) (s : ℚ) (h : s ≠ 0) :
    ((e.div s).mul s).terms = e.terms := by
  show (e.terms.map _).map _ = e.terms
  rw [List.map_map]
  conv_rhs => rw [← List.map_id e.terms]
  refine List.map_congr_left (fun t _ => ?_)
  simp [Function.comp, one_div, mul_inv_cancel_left₀ h]

/-- Witness for C7 at `e = 3·v0`, `s = 2`. -/
theorem div_mul_cancel_termwise_witness :
    (2 : ℚ) ≠ 0 ∧
    ((Expression.mk [((3 : ℚ), some ⟨0, none⟩)] |>.div 2 |>.mul 2)).terms
      = [((3 : ℚ), some (⟨0, none⟩ : Variable))] :=
  ⟨by norm_num, div_mul_cancel_termwise ⟨[(3, some ⟨0, none⟩)]⟩ 2 (by norm_num)⟩

/-- C9: `Solution.get_value` resolves a term's variable through its display
name (stored name, or `"v" ++ id` when unnamed), never through the numeric
id: two handles with equal display names evaluate equally as singleton
expressions even when their ids differ. -/
theorem get_value_resolves_by_display_name (s : Solution ℚ) (v1 v2 : Variable)
    (h : v1.name = v2.name) :
    s.get_value (Expression.ofVar v1) = s.get_value (Expression.ofVar v2) := by
  simp only [Solution.get_value, Expression.ofVar, List.map_cons, List.map_nil, h]

/-- Witness for C9: ids 0 and 1, both displaying as `"a"`. -/
theorem get_value_resolves_by_display_name_witness :
    (Variable.mk 0 (some "a")).name = (Variable.mk 1 (some "a")).name ∧
    ((⟨fun k => if k = "a" then some 5 else none⟩ : Solution ℚ)).get_value
        (Expression.ofVar ⟨0, some "a"⟩)
      = ((⟨fun k => if k = "a" then some 5 else none⟩ : Solution ℚ)).get_value
        (Expression.ofVar ⟨1, some "a"⟩) :=
  ⟨rfl, get_value_resolves_by_display_name _ _ _ rfl⟩

/-- C4: `get_value` returns the sum over the expression's terms of
coefficient times (the recorded value of the term's variable's display name,
zero when absent; one for a variable-less term), and zero for an expression
with no terms. -/
theorem get_value_is_sum_of_contributions (s : Solution ℚ) (e : Expression ℚ) :
    s.get_value e
      = (e.terms.map (fun t => t.1 *
          (match t.2 with
           | some v => (s.values v.name).getD 0
           | none => (1 : ℚ)))).sum ∧
    (e.terms = [] → s.get_value e = 0) := by
  constructor
  · rw [Solution.get_value, reduceAdd_eq_sum]
    congr 1
    exact List.map_congr_left (fun t _ => mul_comm _ _)
  · intro h
    rw [Solution.get_value, h]
    rfl

/-- Witness for C4 at the empty expression. -/
theorem get_value_is_sum_of_contributions_witness :
    ((⟨fun _ => none⟩ : Solution ℚ)).get_value ⟨[]⟩ = 0 :=
  (get_value_is_sum_of_contributions ⟨fun _ => none⟩ ⟨[]⟩).2 rfl


theorem filter_eq_self_of_isSome (V : List (ℚ × Option Variable))
    (hV : ∀ t ∈ V, t.2.isSome) :
    V.filter (fun e => e.2.isSome) = V :=
  List.filter_eq_self.mpr hV

theorem filter_isNone_eq_nil_of_isSome (V : List (ℚ × Option Variable))
    (hV : ∀ t ∈ V, t.2.isSome) :
    V.filter (fun e => e.2.isNone) = [] := by
  rw [List.filter_eq_nil_iff]
  intro a ha
  have := hV a ha
  cases h : a.2 <;> simp [h] at this ⊢

/-- A constraint already in normal form (variable-only lhs, single negated
constant on the rhs) is a fixed point of `to_normalized`. -/
theorem to_normalized_fixed (o : Ordering) (V : List (ℚ × Option Variable))
    (hV : ∀ t ∈ V, t.2.isSome) (k : ℚ) :
    (Constraint.mk ⟨V⟩ o (Expression.ofConst (-k))).to_normalized
      = ⟨⟨V⟩, o, Expression.ofConst (-k)⟩ := by
  unfold Constraint.to_normalized
  simp only [Expression.sub, Expression.add, Expression.neg, Expression.mul,
    Expression.ofConst, List.map_cons, List.map_nil, Constraint.mk.injEq,
    Expression.mk.injEq]
  refine ⟨?_, trivial, ?_⟩
  · rw [List.filter_append, filter_eq_self_of_isSome V hV]
    simp
  · rw [List.filter_append, filter_isNone_eq_nil_of_isSome V hV]
    simp only [List.nil_append, List.filter_cons]
    norm_num

/-- C5: normalizing an already-normalized constraint yields the same rhs
constant, the same relation, and the same multiset (indeed the same list) of
lhs variable terms. -/
theorem to_normalized_idempotent (c : Constraint ℚ) :
    c.to_normalized.to_normalized.rhs = c.to_normalized.rhs ∧
    c.to_normalized.to_normalized.ord = c.to_normalized.ord ∧
    (c.to_normalized.to_normalized.lhs.terms : Multiset (ℚ × Option Variable))
      = (c.to_normalized.lhs.terms : Multiset (ℚ × Option Variable)) := by
  have h2 : c.to_normalized = Constraint.mk
      ⟨(c.lhs.sub c.rhs).terms.filter (fun e => e.2.isSome)⟩ c.ord
      (Expression.ofConst
        (-(((c.lhs.sub c.rhs).terms.filter (fun e => e.2.isNone)).foldl
            (fun r e => r + e.1) 0))) := rfl
  have h : c.to_normalized.to_normalized = c.to_normalized := by
    rw [h2]
    exact to_normalized_fixed _ _ (fun t ht => (List.mem_filter.mp ht).2) _
  rw [h]
  exact ⟨rfl, rfl, rfl⟩

/-- C2: `to_normalized` keeps exactly the variable-carrying terms of
`lhs - rhs` in their original order as the new lhs, makes the new rhs the
single constant term equal to the negation of the left-to-right sum
(starting from zero) of the variable-less terms of `lhs - rhs`, and carries
the relation through; in particular `2x + 3 ≤ y + 1` normalizes to lhs
`[2x, -1y]` and rhs `-2` with relation still ≤. -/
theorem to_normalized_characterization :
    (∀ (lhs rhs : Expression ℚ) (o : Ordering),
      (Constraint.mk lhs o rhs).to_normalized.lhs.terms
          = (lhs.sub rhs).terms.filter (fun t => t.2.isSome) ∧
      (Constraint.mk lhs o rhs).to_normalized.rhs.terms
          = [(-((((lhs.sub rhs).terms.filter (fun t => t.2.isNone)).map Prod.fst).sum), none)] ∧
      (Constraint.mk lhs o rhs).to_normalized.ord = o) ∧
    ((((Expression.ofVar ⟨0, some "x"⟩ : Expression ℚ).mul 2).add
        (Expression.ofConst 3)).le
      ((Expression.ofVar ⟨1, some "y"⟩ : Expression ℚ).add
        (Expression.ofConst 1))).to_normalized.lhs.terms
        = [((2 : ℚ), some ⟨0, some "x"⟩), ((-1 : ℚ), some ⟨1, some "y"⟩)] ∧
    ((((Expression.ofVar ⟨0, some "x"⟩ : Expression ℚ).mul 2).add
        (Expression.ofConst 3)).le
      ((Expression.ofVar ⟨1, some "y"⟩ : Expression ℚ).add
        (Expression.ofConst 1))).to_normalized.rhs.terms
        = [((-2 : ℚ), none)] ∧
    ((((Expression.ofVar ⟨0, some "x"⟩ : Expression ℚ).mul 2).add
        (Expression.ofConst 3)).le
      ((Expression.ofVar ⟨1, some "y"⟩ : Expression ℚ).add
        (Expression.ofConst 1))).to_normalized.ord = Ordering.lt := by
  refine ⟨fun lhs rhs o => ⟨rfl, ?_, rfl⟩, ?_, ?_, rfl⟩
  · show [(-(((lhs.sub rhs).terms.filter (fun t => t.2.isNone)).foldl (fun r e => r + e.1) 0),
        (none : Option Variable))] = _
    rw [foldl_add_fst_eq_sum, zero_add]
  · simp only [Expression.le, Constraint.to_normalized, Expression.sub, Expression.add,
      Expression.neg, Expression.mul, Expression.ofVar, Expression.ofConst,
      List.map_cons, List.map_nil, List.cons_append, List.nil_append, List.filter_cons,
      List.filter_nil, Option.isSome_some, Option.isSome_none]
    norm_num
  · simp only [Expression.le, Constraint.to_normalized, Expression.sub, Expression.add,
      Expression.neg, Expression.mul, Expression.ofVar, Expression.ofConst,
      List.map_cons, List.map_nil, List.cons_append, List.nil_append, List.filter_cons,
      List.filter_nil, Option.isNone_some, Option.isNone_none]
    norm_num

/-! ## Rendering (impl Display for Expression, src/expression.rs lines 39-64)

The numeric coefficient rendering (`{:.64}` on the numeric type's `Display`)
is abstracted as an arbitrary function `f : ℚ → String`; the structure of
the rendered text is what the code fixes.  `Variable`'s `Display`
(src/variable.rs lines 54-65) prints the stored name or `"v" ++ id`, which
is exactly `Variable.name`. -/

namespace Expression

/-- Embeds `impl Display for Expression`: the first term prints its signed
coefficient then ` name` when a variable is present; every later term prints
`" + "` and its coefficient when the coefficient equals its absolute value,
otherwise `" - "` and the absolute value, then ` name` when present; an
empty expression prints nothing. -/
def render (f : ℚ → String) (e : Expression ℚ) : String :=
  match e.terms with
  | [] => ""
  | t :: rest =>
    rest.foldl
      (fun acc u =>
        acc ++ (if u.1 = |u.1| then " + " ++ f u.1 else " - " ++ f |u.1|)
            ++ (match u.2 with | some v => " " ++ v.name | none => ""))
      (f t.1 ++ (match t.2 with | some v => " " ++ v.name | none => ""))

/-- The claim's description of rendering: empty text for no terms; otherwise
the first term's signed coefficient immediately followed by its variable's
display name when present, then each subsequent term as an explicit `+`/`-`
chosen by the term's sign, the absolute value of its coefficient, and the
variable's display name when present. -/
def renderSpec (f : ℚ → String) (e : Expression ℚ) : String :=
  match e.terms with
  | [] => ""
  | t :: rest =>
      f t.1 ++ (match t.2 with | some v => " " ++ v.name | none => "") ++
      String.join (rest.map (fun u =>
        (if 0 ≤ u.1 then " + " else " - ") ++ f |u.1| ++
        (match u.2 with | some v => " " ++ v.name | none => "")))

end Expression

theorem strFoldl_append (l : List String) (a b : String) :
    l.foldl (· ++ ·) (a ++ b) = a ++ l.foldl (· ++ ·) b := by
  induction l generalizing b with
  | nil => rfl
  | cons x xs ih => simp only [List.foldl_cons, String.append_assoc, ih]

theorem strJoin_cons (x : String) (xs : List String) :
    String.join (x :: xs) = x ++ String.join xs := by
  show xs.foldl (· ++ ·) ("" ++ x) = x ++ xs.foldl (· ++ ·) ""
  have h : "" ++ x = x ++ "" := by simp
  rw [h, strFoldl_append]

theorem strFoldl_glue {β : Type} (g h : β → String) (l : List β) (acc : String) :
    l.foldl (fun a u => a ++ g u ++ h u) acc
      = acc ++ String.join (l.map (fun u => g u ++ h u)) := by
  induction l generalizing acc with
  | nil => simp [String.join]
  | cons u us ih =>
    rw [List.foldl_cons, ih, List.map_cons, strJoin_cons]
    simp [String.append_assoc]

/-- C8: the rendering produced by the `Display` implementation agrees with
the claim's description for every coefficient renderer and expression. -/
theorem render_eq_renderSpec (f : ℚ → String) (e : Expression ℚ) :
    e.render f = e.renderSpec f := by
  obtain ⟨ts⟩ := e
  cases ts with
  | nil => rfl
  | cons t rest =>
    show rest.foldl _ _ = _
    rw [strFoldl_glue]
    show _ = _ ++ String.join _
    congr 1
    refine congrArg String.join (List.map_congr_left (fun u _ => ?_))
    show _ ++ _ = _
    congr 1
    rcases le_or_lt 0 u.1 with h | h
    · have ha : |u.1| = u.1 := abs_of_nonneg h
      rw [if_pos ha.symm, if_pos h, ha]
    · have ha : |u.1| = -u.1 := abs_of_neg h
      have hne : u.1 ≠ |u.1| := by
        rw [ha]
        intro hc
        have h0 : u.1 = 0 := by linarith
        exact absurd h0 (ne_of_lt h)
      rw [if_neg hne, if_neg (not_le.mpr h)]

/-! ## Unicode character classes of the import regex

The importer's regex `^(?<id>\w+)\s+(?<fraction>\d+(?:\/\d+)?)` is compiled
by the Rust `regex` crate with its default Unicode semantics: `\w` is the
UTS#18 word class (alphabetic, marks, decimal digits, connector
punctuation, join controls), `\s` is `\p{White_Space}` (exactly 25 code
points), and `\d` is `\p{Nd}` (the Unicode decimal digits).  The classes
are embedded below as explicit code-point tables taken from the Unicode
Character Database (category data as of Unicode 14.0 plus the decimal-digit
ranges added since); a class test scans the table for a range containing
the character's code point. -/

